import Mathlib

/-!
Shallow embedding of `dnsbuster` (src/main.rs), an asynchronous DNS
subdomain enumeration tool, together with proofs about its scheduler
loop, pacing controller, dispatch order, result classification and
output format.

Modelling conventions:
* Machine integers are `Nat`; time is measured in nanoseconds, so
  `Duration::from_secs(1) / qps` becomes `1000000000 / qps` (Rust's
  `Duration` division by a `u32` truncates to nanosecond precision).
* The `f64` division with `.floor()` in the pacing computation is
  modelled by exact rational division with `Int.floor`.
* The asynchronous resolver is an oracle `String → LookupResponse`
  giving, for each fully qualified name, the outcome of its lookup.
* One iteration of the `loop` in `main` observes a single clock value
  `now`; the nondeterministic choice of which in-flight future finishes
  first in `select_all` is an oracle index `choice` (taken modulo the
  number of in-flight futures).
* Panics (`Duration / 0`) are modelled with `Option`.
-/

namespace Dnsbuster

/-- Status of a resolve task, from `enum ResolveStatus` in src/main.rs. -/
inductive ResolveStatus where
  | Pending
  | Timeout
  | Resolved
  | CantResolve
deriving DecidableEq, Repr

/-- A candidate to resolve, from `struct ResolveTask` in src/main.rs. -/
structure ResolveTask where
  subdomain : String
  status : ResolveStatus
deriving DecidableEq, Repr

/-- Constructor `ResolveTask::new`: a fresh task starts `Pending`. -/
def ResolveTask.new (subdomain : String) : ResolveTask :=
  { subdomain := subdomain, status := ResolveStatus.Pending }

/-- The error kinds of `trust_dns_resolver::error::ResolveErrorKind`
distinguished by the `match` in `resolve` (the ones not matched
explicitly are hit by the `_` catch-all arm). -/
inductive ResolveErrorKind where
  | Timeout
  | NoRecordsFound
  | Message
  | NoConnections
  | Proto
deriving DecidableEq, Repr

/-- Outcome of `resolver.lookup_ip(..).await`: `Ok(_)` with some records,
or `Err(e)` with an error kind. -/
inductive LookupResponse where
  | ok
  | err (e : ResolveErrorKind)
deriving DecidableEq, Repr

/-- The name queried for a task, line 66 of src/main.rs:
`format!("{}.{}", task.subdomain, target)`. -/
def to_resolve (task : ResolveTask) (target : String) : String :=
  task.subdomain ++ "." ++ target

/-- `async fn resolve` (src/main.rs lines 61-94): query the resolver for
`"{subdomain}.{target}"` and classify the outcome into a terminal status. -/
def resolve (resolver : String → LookupResponse) (task : ResolveTask)
    (target : String) : ResolveTask :=
  let response := resolver (to_resolve task target)
  match response with
  | LookupResponse.err e =>
    match e with
    | ResolveErrorKind.Timeout =>
      { subdomain := task.subdomain, status := ResolveStatus.Timeout }
    | ResolveErrorKind.NoRecordsFound =>
      { subdomain := task.subdomain, status := ResolveStatus.CantResolve }
    | _ =>
      { subdomain := task.subdomain, status := ResolveStatus.CantResolve }
  | LookupResponse.ok =>
    { subdomain := task.subdomain, status := ResolveStatus.Resolved }

/-- `fn read_subdomains` (src/main.rs lines 97-106): the file's lines
arrive as `io::Result<String>` (modelled `Option String`); failed reads
are dropped by `filter_map(|x| x.ok())` and each remaining line becomes
one `ResolveTask::new(line)`. -/
def read_subdomains (lines : List (Option String)) : List ResolveTask :=
  (lines.filterMap id).map (fun x => ResolveTask.new x)

/-- `Duration::from_secs(1) / args.qps` (src/main.rs line 130), in
nanoseconds. Rust's `Duration` division panics when the divisor is `0`;
the panic is modelled by `none`. -/
def future_creation_interval (qps : Nat) : Option Nat :=
  if qps = 0 then none else some (1000000000 / qps)

/-- Immutable configuration of one run of the scheduler loop. -/
structure SchedEnv where
  resolver : String → LookupResponse
  target : String
  interval : Nat

/-- Mutable state of the scheduler loop in `main` (src/main.rs lines
127-181): the queue of pending tasks, the in-flight futures (each
remembered by the task it will resolve), the completed counter, the
pacing timestamp, and the lines already emitted (as result tasks). -/
structure SchedState where
  pending_tasks : List ResolveTask
  futures : List ResolveTask
  completed : Nat
  last_future_created : Nat
  output : List ResolveTask
deriving DecidableEq, Repr

/-- Initial state built in `main` before the loop: the task queue from
`read_subdomains`, no futures, zero completed, `last_future_created`
initialised to the current instant, nothing printed. -/
def initState (tasks : List ResolveTask) (t0 : Nat) : SchedState :=
  { pending_tasks := tasks
    futures := []
    completed := 0
    last_future_created := t0
    output := [] }

/-- Lines 138-143 of src/main.rs: the number of new futures permitted
this iteration; `(elapsed.as_secs_f64() / interval.as_secs_f64()).floor()`
when `elapsed > interval`, otherwise `0`. The `f64` quotient of the two
durations followed by `.floor()` is the floor of the exact rational
quotient, which on naturals is `Nat` division (`n_new_tasks_floor` below
proves the equality with the rational-floor form). -/
def n_new_tasks (elapsed interval : Nat) : Nat :=
  if elapsed > interval then elapsed / interval else 0

/-- One execution of the body of the dispatch `for` loop (src/main.rs
lines 146-151): `pop_back` one task from the queue; when it succeeds,
advance the pacing timestamp to `now` and push the future. -/
def dispatchOne (now : Nat) (s : SchedState) : SchedState :=
  match s.pending_tasks.getLast? with
  | none => s
  | some task =>
    { s with
      pending_tasks := s.pending_tasks.dropLast
      futures := s.futures ++ [task]
      last_future_created := now }

/-- The dispatch `for` loop run `k` times. -/
def dispatchMany (now : Nat) : Nat → SchedState → SchedState
  | 0, s => s
  | k + 1, s => dispatchMany now k (dispatchOne now s)

/-- Lines 136-151 of src/main.rs: compute `n_new_tasks` from the elapsed
time, clamp it to the queue length, and dispatch that many tasks. -/
def dispatchPhase (env : SchedEnv) (now : Nat) (s : SchedState) : SchedState :=
  let elapsed := now - s.last_future_created
  let n := n_new_tasks elapsed env.interval
  dispatchMany now (min n s.pending_tasks.length) s

/-- `Vec::swap_remove(i)`: overwrite index `i` with the last element and
pop the last element. This is how `select_all` removes the completed
future from the vector. -/
def swapRemove (l : List ResolveTask) (i : Nat) : List ResolveTask :=
  match l.getLast? with
  | none => l
  | some last => (l.set i last).dropLast

/-- Lines 154-159 of src/main.rs: when futures are in flight, wait for
the first one to finish (`select_all`), bump `completed`, print the
result line and keep the remaining futures. Which future finishes first
is the oracle `choice`, reduced modulo the number of futures. -/
def completeOne (env : SchedEnv) (choice : Nat) (s : SchedState) : SchedState :=
  if s.futures.length > 0 then
    let i := choice % s.futures.length
    let task := s.futures.getD i (ResolveTask.new "")
    let result := resolve env.resolver task env.target
    { s with
      futures := swapRemove s.futures i
      completed := s.completed + 1
      output := s.output ++ [result] }
  else s

/-- One iteration of the `loop` in `main` (src/main.rs lines 136-175):
the dispatch phase followed by the completion phase. The idle `sleep`
and the debug prints do not change the modelled state. -/
def step (env : SchedEnv) (now choice : Nat) (s : SchedState) : SchedState :=
  completeOne env choice (dispatchPhase env now s)

/-- The exit test at the end of the loop body (src/main.rs line 177):
`futures.len() == 0 && pending_tasks.len() == 0`. -/
def loopDone (s : SchedState) : Bool :=
  s.futures.isEmpty && s.pending_tasks.isEmpty

/-- Run the loop for `n` iterations starting at tick index `j`, reading
the clock and the completion choice for tick `i` from the oracles
`nowF i` and `chF i`. -/
def iterFrom (env : SchedEnv) (nowF chF : Nat → Nat) :
    Nat → Nat → SchedState → SchedState
  | _, 0, s => s
  | j, n + 1, s => iterFrom env nowF chF (j + 1) n (step env (nowF j) (chF j) s)

/-- The whole program (src/main.rs `main`): build the task queue, compute
the pacing interval (aborting on `qps = 0`), then run `n` iterations of
the scheduler loop. `none` models the startup panic: no loop iteration,
hence no query, ever happens. -/
def runProgram (resolver : String → LookupResponse) (target : String)
    (qps : Nat) (lines : List (Option String)) (t0 : Nat)
    (nowF chF : Nat → Nat) (n : Nat) : Option SchedState :=
  (future_creation_interval qps).map fun interval =>
    iterFrom { resolver := resolver, target := target, interval := interval }
      nowF chF 0 n (initState (read_subdomains lines) t0)

/-- The `Debug` rendering of a status, as printed by `{:?}` on line 157. -/
def statusName : ResolveStatus → String
  | ResolveStatus.Pending => "Pending"
  | ResolveStatus.Timeout => "Timeout"
  | ResolveStatus.Resolved => "Resolved"
  | ResolveStatus.CantResolve => "CantResolve"

/-- The line printed for a completed task, line 157 of src/main.rs:
`println!("{}.{} {:?}", result.subdomain, args.target, result.status)`. -/
def printedLine (target : String) (t : ResolveTask) : String :=
  t.subdomain ++ "." ++ target ++ " " ++ statusName t.status

/-- The classification table of §4.3 of the specification, written from
the spec's words, to be compared with the `match` inside `resolve`. -/
def classification_policy : LookupResponse → ResolveStatus
  | LookupResponse.ok => ResolveStatus.Resolved
  | LookupResponse.err ResolveErrorKind.Timeout => ResolveStatus.Timeout
  | LookupResponse.err ResolveErrorKind.NoRecordsFound => ResolveStatus.CantResolve
  | LookupResponse.err _ => ResolveStatus.CantResolve

/-- The subdomain labels of a list of tasks. -/
def taskNames (l : List ResolveTask) : List String :=
  l.map ResolveTask.subdomain

/-- All task labels currently tracked by the scheduler: still queued,
in flight, or already emitted. Conserved (as a multiset) by every loop
iteration. -/
def tracked (s : SchedState) : List String :=
  taskNames s.pending_tasks ++ taskNames s.futures ++ taskNames s.output

/-- Every task already emitted carries a terminal status. -/
def outputsTerminal (s : SchedState) : Prop :=
  ∀ t ∈ s.output, t.status ≠ ResolveStatus.Pending

/-- Termination measure of the scheduler loop: queued tasks count twice
(they must still be dispatched and completed), in-flight tasks once. -/
def workLeft (s : SchedState) : Nat :=
  2 * s.pending_tasks.length + s.futures.length

/-- A concrete resolver for witnesses: every lookup succeeds. -/
def wResolver : String → LookupResponse :=
  fun _ => LookupResponse.ok

/-- A concrete environment for witnesses. -/
def wEnv : SchedEnv :=
  { resolver := wResolver, target := "example.com", interval := 100 }

/-- A concrete clock for witnesses: tick `j` happens at `(j+1) * 1000`. -/
def wNow : Nat → Nat :=
  fun j => (j + 1) * 1000

/-- A concrete completion oracle for witnesses: the first future wins. -/
def wCh : Nat → Nat :=
  fun _ => 0

/-- A concrete task list for witnesses. -/
def wTasks : List ResolveTask :=
  [ResolveTask.new "www", ResolveTask.new "mail"]

/-- `resolve` keeps the subdomain of the task it was given. -/
theorem resolve_subdomain (r : String → LookupResponse) (task : ResolveTask)
    (target : String) : (resolve r task target).subdomain = task.subdomain := by
  unfold resolve
  cases r (to_resolve task target) with
  | ok => rfl
  | err e => cases e <;> rfl

/-- `resolve` never returns a `Pending` status. -/
theorem resolve_status_terminal (r : String → LookupResponse) (task : ResolveTask)
    (target : String) : (resolve r task target).status ≠ ResolveStatus.Pending := by
  unfold resolve
  cases r (to_resolve task target) with
  | ok => simp
  | err e => cases e <;> simp

/-- Unfolding `swapRemove` one `cons`-`cons` layer down. -/
theorem swapRemove_cons_cons (x y : ResolveTask) (t : List ResolveTask) (j : Nat) :
    swapRemove (x :: y :: t) (j + 1) = x :: swapRemove (y :: t) j := by
  cases hg : (y :: t).getLast? with
  | none => simp at hg
  | some g =>
    simp only [swapRemove, List.getLast?_cons_cons, hg, List.set_cons_succ]
    cases j with
    | zero => rfl
    | succ j =>
      cases t with
      | nil => rfl
      | cons z t' => rfl

/-- `swap_remove` at a valid index removes exactly that element, up to
permutation of the remaining ones. -/
theorem swapRemove_perm (l : List ResolveTask) (i : Nat) (h : i < l.length) :
    ((l.getD i (ResolveTask.new "")) :: swapRemove l i).Perm l := by
  induction l generalizing i with
  | nil => simp at h
  | cons x t ih =>
    cases i with
    | zero =>
      cases ht : t with
      | nil => simp [swapRemove, List.getD]
      | cons y t' =>
        subst ht
        cases hg : (y :: t').getLast? with
        | none => simp at hg
        | some g =>
          have hne : (y : ResolveTask) :: t' ≠ [] := by simp
          have hgl : g = (y :: t').getLast hne := by
            have h2 := List.getLast?_eq_getLast (y :: t') hne
            rw [hg] at h2
            exact Option.some_injective _ h2
          simp only [swapRemove, List.getLast?_cons_cons, hg, List.getD_cons_zero,
            List.set_cons_zero]
          have hd : (g :: y :: t').dropLast = g :: (y :: t').dropLast := rfl
          rw [hd]
          refine List.Perm.cons x ?_
          have h2 : (y :: t') = (y :: t').dropLast ++ [g] := by
            rw [hgl]
            exact (List.dropLast_append_getLast hne).symm
          have h3 : ((g : ResolveTask) :: (y :: t').dropLast).Perm
              ((y :: t').dropLast ++ [g]) := by
            simpa using (@List.perm_middle ResolveTask g (y :: t').dropLast []).symm
          rw [← h2] at h3
          exact h3
    | succ j =>
      cases t with
      | nil => simp at h
      | cons y t' =>
        have hj : j < (y :: t').length := by simpa using h
        rw [swapRemove_cons_cons, List.getD_cons_succ]
        exact (List.Perm.swap x ((y :: t').getD j (ResolveTask.new "")) _).trans
          ((ih j hj).cons x)

/-- `swap_remove` on a nonempty vector shrinks it by one. -/
theorem swapRemove_length (l : List ResolveTask) (h : l ≠ []) (i : Nat) :
    (swapRemove l i).length = l.length - 1 := by
  cases hg : l.getLast? with
  | none =>
    simp [List.getLast?_eq_none_iff] at hg
    exact absurd hg h
  | some g => simp [swapRemove, hg]

/-- `completeOne` with no future in flight does nothing. -/
theorem completeOne_of_nil (env : SchedEnv) (choice : Nat) (s : SchedState)
    (hf : s.futures = []) : completeOne env choice s = s := by
  unfold completeOne
  rw [hf]
  simp

/-- `completeOne` with futures in flight: the chosen future is swap-removed,
its result is appended to the output, the completed counter is bumped. -/
theorem completeOne_of_ne_nil (env : SchedEnv) (choice : Nat) (s : SchedState)
    (hf : s.futures ≠ []) :
    completeOne env choice s
      = { s with
          futures := swapRemove s.futures (choice % s.futures.length)
          completed := s.completed + 1
          output := s.output
            ++ [resolve env.resolver
                  (s.futures.getD (choice % s.futures.length) (ResolveTask.new ""))
                  env.target] } := by
  unfold completeOne
  rw [if_pos (List.length_pos.mpr hf)]

/-- `completeOne` never touches the task queue. -/
theorem completeOne_pending (env : SchedEnv) (choice : Nat) (s : SchedState) :
    (completeOne env choice s).pending_tasks = s.pending_tasks := by
  unfold completeOne
  split <;> rfl

/-- `completeOne` never touches the pacing timestamp. -/
theorem completeOne_last (env : SchedEnv) (choice : Nat) (s : SchedState) :
    (completeOne env choice s).last_future_created = s.last_future_created := by
  unfold completeOne
  split <;> rfl

/-- Full characterisation of the dispatch `for` loop run `k ≤ |queue|`
times: the last `k` tasks leave the queue and join the futures in
reverse order; the pacing timestamp moves to `now` iff `k ≠ 0`. -/
theorem dispatchMany_spec (now : Nat) (k : Nat) (s : SchedState)
    (hk : k ≤ s.pending_tasks.length) :
    (dispatchMany now k s).pending_tasks
        = s.pending_tasks.take (s.pending_tasks.length - k)
    ∧ (dispatchMany now k s).futures
        = s.futures ++ (s.pending_tasks.drop (s.pending_tasks.length - k)).reverse
    ∧ (dispatchMany now k s).completed = s.completed
    ∧ (dispatchMany now k s).output = s.output
    ∧ (dispatchMany now k s).last_future_created
        = (if k = 0 then s.last_future_created else now) := by
  induction k generalizing s with
  | zero => simp [dispatchMany]
  | succ k ih =>
    have hne : s.pending_tasks ≠ [] := by
      intro hnil
      rw [hnil] at hk
      simp at hk
    have hone : dispatchOne now s
        = { s with
            pending_tasks := s.pending_tasks.dropLast
            futures := s.futures ++ [s.pending_tasks.getLast hne]
            last_future_created := now } := by
      unfold dispatchOne
      rw [List.getLast?_eq_getLast _ hne]
    have hdl : s.pending_tasks.dropLast.length = s.pending_tasks.length - 1 :=
      List.length_dropLast _
    have hk' : k ≤ (dispatchOne now s).pending_tasks.length := by
      rw [hone]
      simp only [List.length_dropLast]
      omega
    obtain ⟨hp, hf, hc, ho, hl⟩ := ih (dispatchOne now s) hk'
    rw [hone] at hp hf hc ho hl
    simp only at hp hf hc ho hl
    have hstep : dispatchMany now (k + 1) s = dispatchMany now k (dispatchOne now s) := rfl
    have hsplit : s.pending_tasks
        = s.pending_tasks.dropLast ++ [s.pending_tasks.getLast hne] :=
      (List.dropLast_append_getLast hne).symm
    have hdrop : s.pending_tasks.drop (s.pending_tasks.length - (k + 1))
        = s.pending_tasks.dropLast.drop (s.pending_tasks.length - 1 - k)
          ++ [s.pending_tasks.getLast hne] := by
      have hda := @List.drop_append_eq_append_drop ResolveTask
        s.pending_tasks.dropLast [s.pending_tasks.getLast hne]
        (s.pending_tasks.length - (k + 1))
      rw [← hsplit] at hda
      rw [hda, hdl]
      rw [show s.pending_tasks.length - (k + 1) - (s.pending_tasks.length - 1) = 0 by omega]
      rw [List.drop_zero]
      congr 2
      omega
    refine ⟨?_, ?_, ?_, ?_, ?_⟩
    · rw [hstep, hone, hp, hdl, List.dropLast_eq_take, List.take_take]
      congr 1
      omega
    · rw [hstep, hone, hf, hdl, hdrop, List.reverse_append]
      simp [List.append_assoc]
    · rw [hstep, hone, hc]
    · rw [hstep, hone, ho]
    · rw [hstep, hone, hl]
      simp

/-- The dispatch phase is the dispatch loop run `min(n_new_tasks, |queue|)`
times. -/
theorem dispatchPhase_eq (env : SchedEnv) (now : Nat) (s : SchedState) :
    dispatchPhase env now s
      = dispatchMany now
          (min (n_new_tasks (now - s.last_future_created) env.interval)
            s.pending_tasks.length) s := rfl

/-- Queue and in-flight sizes after the dispatch phase. -/
theorem dispatchPhase_lengths (env : SchedEnv) (now : Nat) (s : SchedState) :
    (dispatchPhase env now s).pending_tasks.length
        = s.pending_tasks.length
          - min (n_new_tasks (now - s.last_future_created) env.interval)
              s.pending_tasks.length
    ∧ (dispatchPhase env now s).futures.length
        = s.futures.length
          + min (n_new_tasks (now - s.last_future_created) env.interval)
              s.pending_tasks.length := by
  have hk : min (n_new_tasks (now - s.last_future_created) env.interval)
      s.pending_tasks.length ≤ s.pending_tasks.length := Nat.min_le_right _ _
  obtain ⟨hp, hf, -, -, -⟩ := dispatchMany_spec now _ s hk
  constructor
  · rw [dispatchPhase_eq, hp, List.length_take]
    omega
  · rw [dispatchPhase_eq, hf, List.length_append, List.length_reverse, List.length_drop]
    omega

/-- Reshuffling a take/drop split and a reversal is a permutation. -/
theorem take_drop_reverse_perm (N F O : List String) (m : Nat) :
    (N.take m ++ (F ++ (N.drop m).reverse) ++ O).Perm (N ++ F ++ O) := by
  rw [← Multiset.coe_eq_coe]
  simp only [← Multiset.coe_add, Multiset.coe_reverse]
  have h : (↑(N.take m) + ↑(N.drop m) : Multiset String) = ↑N := by
    rw [Multiset.coe_add]
    exact congrArg _ (List.take_append_drop m N)
  rw [← h]
  abel

/-- Moving one element from the middle collection to the end of the last
one is a permutation. -/
theorem middle_out_perm (P F O SR : List String) (a : String)
    (h : (a :: SR).Perm F) : (P ++ SR ++ (O ++ [a])).Perm (P ++ F ++ O) := by
  rw [← Multiset.coe_eq_coe]
  simp only [← Multiset.coe_add]
  have h2 : (↑(a :: SR) : Multiset String) = ↑F := Multiset.coe_eq_coe.mpr h
  rw [← h2]
  simp only [← Multiset.cons_coe, ← Multiset.singleton_add]
  abel

/-- The dispatch phase conserves the tracked labels. -/
theorem dispatchPhase_tracked (env : SchedEnv) (now : Nat) (s : SchedState) :
    (tracked (dispatchPhase env now s)).Perm (tracked s) := by
  have hk : min (n_new_tasks (now - s.last_future_created) env.interval)
      s.pending_tasks.length ≤ s.pending_tasks.length := Nat.min_le_right _ _
  obtain ⟨hp, hf, -, ho, -⟩ := dispatchMany_spec now _ s hk
  simp only [tracked, dispatchPhase_eq, hp, hf, ho, taskNames, List.map_append,
    List.map_take, List.map_drop, List.map_reverse]
  exact take_drop_reverse_perm _ _ _ _

/-- The completion phase conserves the tracked labels. -/
theorem completeOne_tracked (env : SchedEnv) (choice : Nat) (s : SchedState) :
    (tracked (completeOne env choice s)).Perm (tracked s) := by
  by_cases hf : s.futures = []
  · rw [completeOne_of_nil env choice s hf]
  · rw [completeOne_of_ne_nil env choice s hf]
    have hi : choice % s.futures.length < s.futures.length :=
      Nat.mod_lt _ (List.length_pos.mpr hf)
    have hperm := (swapRemove_perm s.futures (choice % s.futures.length) hi).map
      ResolveTask.subdomain
    simp only [List.map_cons] at hperm
    simp only [tracked, taskNames, List.map_append, List.map_cons, List.map_nil,
      resolve_subdomain]
    exact middle_out_perm _ _ _ _ _ hperm

/-- One loop iteration conserves the tracked labels. -/
theorem step_tracked (env : SchedEnv) (now choice : Nat) (s : SchedState) :
    (tracked (step env now choice s)).Perm (tracked s) :=
  (completeOne_tracked env choice _).trans (dispatchPhase_tracked env now s)

/-- One loop iteration keeps all emitted statuses terminal. -/
theorem step_outputs_terminal (env : SchedEnv) (now choice : Nat) (s : SchedState)
    (h : outputsTerminal s) : outputsTerminal (step env now choice s) := by
  have ho : (dispatchPhase env now s).output = s.output := by
    rw [dispatchPhase_eq]
    exact (dispatchMany_spec now _ s (Nat.min_le_right _ _)).2.2.2.1
  unfold step
  by_cases hf : (dispatchPhase env now s).futures = []
  · rw [completeOne_of_nil _ _ _ hf]
    intro t ht
    rw [ho] at ht
    exact h t ht
  · rw [completeOne_of_ne_nil _ _ _ hf]
    intro t ht
    rcases List.mem_append.mp ht with h1 | h2
    · rw [ho] at h1
      exact h t h1
    · rw [List.mem_singleton] at h2
      rw [h2]
      exact resolve_status_terminal _ _ _

/-- Any number of loop iterations conserves the tracked labels. -/
theorem iterFrom_tracked (env : SchedEnv) (nowF chF : Nat → Nat) (n : Nat) :
    ∀ (j : Nat) (s : SchedState),
      (tracked (iterFrom env nowF chF j n s)).Perm (tracked s) := by
  induction n with
  | zero =>
    intro j s
    exact List.Perm.refl _
  | succ n ih =>
    intro j s
    exact (ih (j + 1) (step env (nowF j) (chF j) s)).trans
      (step_tracked env (nowF j) (chF j) s)

/-- Any number of loop iterations keeps all emitted statuses terminal. -/
theorem iterFrom_outputs_terminal (env : SchedEnv) (nowF chF : Nat → Nat) (n : Nat) :
    ∀ (j : Nat) (s : SchedState), outputsTerminal s →
      outputsTerminal (iterFrom env nowF chF j n s) := by
  induction n with
  | zero =>
    intro j s h
    exact h
  | succ n ih =>
    intro j s h
    exact ih (j + 1) _ (step_outputs_terminal env (nowF j) (chF j) s h)

/-- The loop's exit test holds exactly when queue and in-flight set are
both empty. -/
theorem loopDone_iff (s : SchedState) :
    loopDone s = true ↔ (s.pending_tasks = [] ∧ s.futures = []) := by
  unfold loopDone
  rw [Bool.and_eq_true, List.isEmpty_iff, List.isEmpty_iff]
  tauto

/-- The `f64`-floor pacing count is `Nat` division. -/
theorem n_new_tasks_floor (elapsed interval : Nat) :
    n_new_tasks elapsed interval
      = if interval < elapsed then
          (Int.floor ((elapsed : ℚ) / (interval : ℚ))).toNat
        else 0 := by
  unfold n_new_tasks
  rw [Int.floor_toNat, Nat.floor_div_nat, Nat.floor_natCast]

/-- Once more than one interval has elapsed, at least one dispatch is
permitted. -/
theorem n_new_tasks_pos (elapsed interval : Nat) (h1 : 0 < interval)
    (h2 : interval < elapsed) : 1 ≤ n_new_tasks elapsed interval := by
  unfold n_new_tasks
  rw [if_pos h2]
  exact (Nat.one_le_div_iff h1).mpr (le_of_lt h2)

/-- In-flight size after a completion on a nonempty in-flight set. -/
theorem completeOne_futures_length (env : SchedEnv) (choice : Nat) (s : SchedState)
    (hf : s.futures ≠ []) :
    (completeOne env choice s).futures.length = s.futures.length - 1 := by
  rw [completeOne_of_ne_nil env choice s hf]
  exact swapRemove_length s.futures hf _

/-- A non-final iteration whose tick sees more than one interval of
elapsed time strictly decreases the work measure. -/
theorem step_progress (env : SchedEnv) (now choice : Nat) (s : SchedState)
    (hI : 0 < env.interval) (hnd : loopDone s = false)
    (he : env.interval < now - s.last_future_created) :
    workLeft (step env now choice s) < workLeft s := by
  obtain ⟨hp, hfl⟩ := dispatchPhase_lengths env now s
  set k := min (n_new_tasks (now - s.last_future_created) env.interval)
    s.pending_tasks.length with hk
  have hkle : k ≤ s.pending_tasks.length := Nat.min_le_right _ _
  unfold step workLeft
  rw [completeOne_pending]
  by_cases hpe : s.pending_tasks.length = 0
  · have hpnil : s.pending_tasks = [] := List.length_eq_zero.mp hpe
    have hfne : s.futures ≠ [] := by
      intro hn
      have hdone : loopDone s = true := loopDone_iff s |>.mpr ⟨hpnil, hn⟩
      rw [hdone] at hnd
      exact Bool.noConfusion hnd
    have hflen : 0 < s.futures.length := List.length_pos.mpr hfne
    have hdfl : 0 < (dispatchPhase env now s).futures.length := by
      rw [hfl]
      omega
    rw [completeOne_futures_length env choice _ (List.length_pos.mp hdfl), hfl, hp]
    omega
  · have hk1 : 1 ≤ k := by
      rw [hk]
      refine Nat.le_min.mpr ⟨n_new_tasks_pos _ _ hI he, by omega⟩
    have hdfl : 0 < (dispatchPhase env now s).futures.length := by
      rw [hfl]
      omega
    rw [completeOne_futures_length env choice _ (List.length_pos.mp hdfl), hfl, hp]
    omega

/-- The pacing timestamp can only stay put or move to the tick's `now`. -/
theorem step_last_cases (env : SchedEnv) (now choice : Nat) (s : SchedState) :
    (step env now choice s).last_future_created = s.last_future_created
    ∨ (step env now choice s).last_future_created = now := by
  unfold step
  rw [completeOne_last, dispatchPhase_eq]
  have hl := (dispatchMany_spec now
    (min (n_new_tasks (now - s.last_future_created) env.interval)
      s.pending_tasks.length) s (Nat.min_le_right _ _)).2.2.2.2
  rw [hl]
  split
  · left; rfl
  · right; rfl

/-- An idle tick — nothing in flight and a zero dispatch allowance —
leaves the loop state completely unchanged (the code only sleeps). -/
theorem step_fixed_of_idle (env : SchedEnv) (now choice : Nat) (s : SchedState)
    (hf : s.futures = [])
    (hk : min (n_new_tasks (now - s.last_future_created) env.interval)
        s.pending_tasks.length = 0) :
    step env now choice s = s := by
  unfold step
  have hdp : dispatchPhase env now s = s := by
    rw [dispatchPhase_eq, hk]
    rfl
  rw [hdp]
  exact completeOne_of_nil env choice s hf

/-- A tick with something in flight, or with a positive clamped
allowance, strictly decreases the work measure. -/
theorem step_decreases_of_busy (env : SchedEnv) (now choice : Nat) (s : SchedState)
    (h : s.futures ≠ []
      ∨ 1 ≤ min (n_new_tasks (now - s.last_future_created) env.interval)
          s.pending_tasks.length) :
    workLeft (step env now choice s) < workLeft s := by
  obtain ⟨hp, hfl⟩ := dispatchPhase_lengths env now s
  set k := min (n_new_tasks (now - s.last_future_created) env.interval)
    s.pending_tasks.length with hk
  have hkle : k ≤ s.pending_tasks.length := Nat.min_le_right _ _
  have hfk : 1 ≤ s.futures.length + k := by
    rcases h with h | h
    · have := List.length_pos.mpr h
      omega
    · omega
  have hdfl : 0 < (dispatchPhase env now s).futures.length := by
    rw [hfl]
    omega
  unfold step workLeft
  rw [completeOne_pending, completeOne_futures_length env choice _ (List.length_pos.mp hdfl),
    hfl, hp]
  omega

/-- Running the loop for `n₀ + n₁` ticks is running it for `n₀` ticks and
then for `n₁` more. -/
theorem iterFrom_add (env : SchedEnv) (nowF chF : Nat → Nat) (n₁ : Nat) :
    ∀ (n₀ j : Nat) (s : SchedState),
      iterFrom env nowF chF j (n₀ + n₁) s
        = iterFrom env nowF chF (j + n₀) n₁ (iterFrom env nowF chF j n₀ s) := by
  intro n₀
  induction n₀ with
  | zero =>
    intro j s
    rw [Nat.zero_add, Nat.add_zero]
    rfl
  | succ n₀ ih =>
    intro j s
    have h1 : n₀ + 1 + n₁ = (n₀ + n₁) + 1 := by omega
    rw [h1]
    have h2 : iterFrom env nowF chF j ((n₀ + n₁) + 1) s
        = iterFrom env nowF chF (j + 1) (n₀ + n₁) (step env (nowF j) (chF j) s) := rfl
    rw [h2, ih (j + 1) (step env (nowF j) (chF j) s)]
    have h3 : j + 1 + n₀ = j + (n₀ + 1) := by omega
    rw [h3]
    rfl

/-- From any non-final state, once the clock of some upcoming tick lies
more than one interval past the pacing timestamp, the loop either
finishes or strictly decreases its work measure by that tick: the
in-between ticks are either busy (and already decrease the measure) or
idle (and change nothing, in particular not the pacing timestamp). -/
theorem iterFrom_progress_within (env : SchedEnv) (nowF chF : Nat → Nat)
    (hI : 0 < env.interval) :
    ∀ (d j : Nat) (s : SchedState), loopDone s = false →
      s.last_future_created + env.interval < nowF (j + d) →
      ∃ n, loopDone (iterFrom env nowF chF j n s) = true
        ∨ workLeft (iterFrom env nowF chF j n s) < workLeft s := by
  intro d
  induction d with
  | zero =>
    intro j s hnd hgap
    rw [Nat.add_zero] at hgap
    have he : env.interval < nowF j - s.last_future_created := by omega
    exact ⟨1, Or.inr (step_progress env (nowF j) (chF j) s hI hnd he)⟩
  | succ d ih =>
    intro j s hnd hgap
    by_cases hbusy : s.futures ≠ []
      ∨ 1 ≤ min (n_new_tasks (nowF j - s.last_future_created) env.interval)
          s.pending_tasks.length
    · exact ⟨1, Or.inr (step_decreases_of_busy env (nowF j) (chF j) s hbusy)⟩
    · push_neg at hbusy
      obtain ⟨hf, hklt⟩ := hbusy
      have hk : min (n_new_tasks (nowF j - s.last_future_created) env.interval)
          s.pending_tasks.length = 0 := by omega
      have hfix := step_fixed_of_idle env (nowF j) (chF j) s hf hk
      have hgap' : s.last_future_created + env.interval < nowF ((j + 1) + d) := by
        have hcomm : (j + 1) + d = j + (d + 1) := by omega
        rw [hcomm]
        exact hgap
      obtain ⟨n, hor⟩ := ih (j + 1) s hnd hgap'
      refine ⟨n + 1, ?_⟩
      have hstep : iterFrom env nowF chF j (n + 1) s
          = iterFrom env nowF chF (j + 1) n (step env (nowF j) (chF j) s) := rfl
      rw [hstep, hfix]
      exact hor

/-- Under any monotone, unbounded clock — real time keeps passing, with
no constraint relative to the pacing interval, so zero-allowance ticks
and idle sleeps are allowed — the loop reaches its exit condition after
finitely many iterations, by induction on the work measure. -/
theorem iterFrom_eventually_done (env : SchedEnv) (nowF chF : Nat → Nat)
    (hI : 0 < env.interval) (hmono : Monotone nowF)
    (hunb : ∀ t, ∃ j, t < nowF j) :
    ∀ (m j : Nat) (s : SchedState), workLeft s ≤ m →
      ∃ n, loopDone (iterFrom env nowF chF j n s) = true := by
  intro m
  induction m with
  | zero =>
    intro j s hw
    refine ⟨0, ?_⟩
    have hp : s.pending_tasks.length = 0 := by
      unfold workLeft at hw
      omega
    have hf : s.futures.length = 0 := by
      unfold workLeft at hw
      omega
    exact loopDone_iff s |>.mpr ⟨List.length_eq_zero.mp hp, List.length_eq_zero.mp hf⟩
  | succ m ih =>
    intro j s hw
    by_cases hd : loopDone s = true
    · exact ⟨0, hd⟩
    · have hnd : loopDone s = false := by
        revert hd
        cases loopDone s <;> simp
      obtain ⟨j₁, hj₁⟩ := hunb (s.last_future_created + env.interval)
      have hgap : s.last_future_created + env.interval < nowF (j + j₁) :=
        lt_of_lt_of_le hj₁ (hmono (Nat.le_add_left j₁ j))
      obtain ⟨n₀, hor⟩ := iterFrom_progress_within env nowF chF hI j₁ j s hnd hgap
      rcases hor with hdone | hless
      · exact ⟨n₀, hdone⟩
      · obtain ⟨n₁, hdone⟩ := ih (j + n₀) (iterFrom env nowF chF j n₀ s) (by omega)
        refine ⟨n₀ + n₁, ?_⟩
        rw [iterFrom_add]
        exact hdone

/-- C1: for every run of the scheduler loop that terminates (the exit
test of line 177 holds after `n` iterations), the emitted results carry
exactly the task labels created from the input — each task is emitted
exactly once, none twice, none left out — and every emitted status is
terminal (never `Pending`). -/
theorem scheduler_emits_each_task_exactly_once (env : SchedEnv)
    (nowF chF : Nat → Nat) (n : Nat) (tasks : List ResolveTask) (t0 : Nat)
    (hdone : loopDone (iterFrom env nowF chF 0 n (initState tasks t0)) = true) :
    (((iterFrom env nowF chF 0 n (initState tasks t0)).output.map
        ResolveTask.subdomain).Perm (tasks.map ResolveTask.subdomain))
    ∧ outputsTerminal (iterFrom env nowF chF 0 n (initState tasks t0)) := by
  have htr := iterFrom_tracked env nowF chF n 0 (initState tasks t0)
  obtain ⟨hpnil, hfnil⟩ := (loopDone_iff _).mp hdone
  constructor
  · have h1 : tracked (iterFrom env nowF chF 0 n (initState tasks t0))
        = (iterFrom env nowF chF 0 n (initState tasks t0)).output.map
            ResolveTask.subdomain := by
      rw [tracked, hpnil, hfnil]
      simp [taskNames]
    have h2 : tracked (initState tasks t0) = tasks.map ResolveTask.subdomain := by
      simp [tracked, initState, taskNames]
    rw [h1, h2] at htr
    exact htr
  · refine iterFrom_outputs_terminal env nowF chF n 0 _ ?_
    intro t ht
    simp [initState] at ht

/-- C1 witness: a concrete two-task run that terminates in two ticks. -/
theorem scheduler_emits_each_task_exactly_once_witness :
    loopDone (iterFrom wEnv wNow wCh 0 2 (initState wTasks 0)) = true
    ∧ ((((iterFrom wEnv wNow wCh 0 2 (initState wTasks 0)).output.map
          ResolveTask.subdomain).Perm (wTasks.map ResolveTask.subdomain))
      ∧ outputsTerminal (iterFrom wEnv wNow wCh 0 2 (initState wTasks 0))) :=
  ⟨by decide, scheduler_emits_each_task_exactly_once wEnv wNow wCh 2 wTasks 0 (by decide)⟩

/-- C2: `resolve` queries exactly the fully qualified name
`"{subdomain}.{target}"` and maps the resolver's outcome through the
spec's classification table: success ↦ `Resolved`, timeout ↦ `Timeout`,
no-records ↦ `CantResolve`, any other error ↦ `CantResolve`. -/
theorem resolve_classifies_lookup_outcome (r : String → LookupResponse)
    (task : ResolveTask) (target : String) :
    resolve r task target
      = { subdomain := task.subdomain,
          status := classification_policy (r (task.subdomain ++ "." ++ target)) } := by
  cases h : r (task.subdomain ++ "." ++ target) with
  | ok => simp [resolve, to_resolve, classification_policy, h]
  | err e =>
    cases e <;>
      simp [resolve, to_resolve, classification_policy, h]

/-- C3: on every tick, the pacing allowance is `floor(elapsed / interval)`
when `elapsed > interval` and `0` otherwise, and the dispatch phase moves
exactly `min(allowance, |queue|)` tasks from the queue into the in-flight
set. -/
theorem pacing_allowance_formula_and_clamp (env : SchedEnv) (now : Nat)
    (s : SchedState) :
    n_new_tasks (now - s.last_future_created) env.interval
      = (if env.interval < now - s.last_future_created then
          (Int.floor (((now - s.last_future_created : Nat) : ℚ)
            / (env.interval : ℚ))).toNat
        else 0)
    ∧ (dispatchPhase env now s).pending_tasks.length
        = s.pending_tasks.length
          - min (n_new_tasks (now - s.last_future_created) env.interval)
              s.pending_tasks.length
    ∧ (dispatchPhase env now s).futures.length
        = s.futures.length
          + min (n_new_tasks (now - s.last_future_created) env.interval)
              s.pending_tasks.length :=
  ⟨n_new_tasks_floor _ _, (dispatchPhase_lengths env now s).1,
    (dispatchPhase_lengths env now s).2⟩

/-- C4: every dispatch removes tasks from the tail of the queue: after the
dispatch phase the queue is a prefix (`take`) of the old queue and the
newly in-flight tasks are the removed tail suffix, most recently read
first — and this holds for every tick of every run, hence the removal-end
choice is applied consistently. -/
theorem dispatch_removes_from_queue_tail (env : SchedEnv) (now : Nat)
    (s : SchedState) :
    (dispatchPhase env now s).pending_tasks
      = s.pending_tasks.take (s.pending_tasks.length
          - min (n_new_tasks (now - s.last_future_created) env.interval)
              s.pending_tasks.length)
    ∧ (dispatchPhase env now s).futures
      = s.futures ++ (s.pending_tasks.drop (s.pending_tasks.length
          - min (n_new_tasks (now - s.last_future_created) env.interval)
              s.pending_tasks.length)).reverse := by
  have hk : min (n_new_tasks (now - s.last_future_created) env.interval)
      s.pending_tasks.length ≤ s.pending_tasks.length := Nat.min_le_right _ _
  have h := dispatchMany_spec now _ s hk
  exact ⟨by rw [dispatchPhase_eq]; exact h.1, by rw [dispatchPhase_eq]; exact h.2.1⟩

/-- C5: every line emitted by a run has the form
`"{subdomain}.{target} {Status}"` where the printed status is one of
`Resolved`, `Timeout`, `CantResolve`; `Pending` is never printed. -/
theorem output_lines_use_terminal_status (env : SchedEnv) (nowF chF : Nat → Nat)
    (n : Nat) (tasks : List ResolveTask) (t0 : Nat) :
    ∀ t ∈ (iterFrom env nowF chF 0 n (initState tasks t0)).output,
      printedLine env.target t
        = t.subdomain ++ "." ++ env.target ++ " " ++ statusName t.status
      ∧ (statusName t.status = "Resolved" ∨ statusName t.status = "Timeout"
          ∨ statusName t.status = "CantResolve") := by
  intro t ht
  have hterm : t.status ≠ ResolveStatus.Pending := by
    refine iterFrom_outputs_terminal env nowF chF n 0 (initState tasks t0) ?_ t ht
    intro u hu
    simp [initState] at hu
  refine ⟨rfl, ?_⟩
  cases hstatus : t.status with
  | Pending => exact absurd hstatus hterm
  | Timeout => right; left; rfl
  | Resolved => left; rfl
  | CantResolve => right; right; rfl

/-- C5 witness: a concrete emitted line of a concrete run. -/
theorem output_lines_use_terminal_status_witness :
    (⟨"mail", ResolveStatus.Resolved⟩ : ResolveTask)
        ∈ (iterFrom wEnv wNow wCh 0 2 (initState wTasks 0)).output
    ∧ (printedLine wEnv.target ⟨"mail", ResolveStatus.Resolved⟩
        = "mail" ++ "." ++ wEnv.target ++ " " ++ statusName ResolveStatus.Resolved
      ∧ (statusName ResolveStatus.Resolved = "Resolved"
          ∨ statusName ResolveStatus.Resolved = "Timeout"
          ∨ statusName ResolveStatus.Resolved = "CantResolve")) :=
  ⟨by decide, output_lines_use_terminal_status wEnv wNow wCh 2 wTasks 0
    ⟨"mail", ResolveStatus.Resolved⟩ (by decide)⟩

/-- C6: for any finite task list, any start timestamp and any positive
pacing interval (any `qps`), under any monotone and unbounded clock —
time only moves forward and keeps passing, with no constraint relative
to the pacing interval, so runs with many zero-allowance ticks and idle
sleeps are covered — and with the resolver always answering (the
completion phase yields a result whenever something is in flight), the
scheduler loop terminates: its exit test holds after finitely many
iterations, and that exit test holds exactly when the task queue and
the in-flight set are both empty. -/
theorem scheduler_terminates_when_work_exhausted (env : SchedEnv)
    (nowF chF : Nat → Nat) (tasks : List ResolveTask) (t0 : Nat)
    (hI : 0 < env.interval)
    (hmono : ∀ j, nowF j ≤ nowF (j + 1))
    (hunb : ∀ t, ∃ j, t < nowF j) :
    (∃ n, loopDone (iterFrom env nowF chF 0 n (initState tasks t0)) = true
      ∧ (iterFrom env nowF chF 0 n (initState tasks t0)).pending_tasks = []
      ∧ (iterFrom env nowF chF 0 n (initState tasks t0)).futures = [])
    ∧ (∀ s : SchedState,
        loopDone s = true ↔ (s.pending_tasks = [] ∧ s.futures = [])) := by
  constructor
  · obtain ⟨n, hdone⟩ := iterFrom_eventually_done env nowF chF hI
      (monotone_nat_of_le_succ hmono) hunb (workLeft (initState tasks t0)) 0
      (initState tasks t0) (Nat.le_refl _)
    obtain ⟨hp, hf⟩ := (loopDone_iff _).mp hdone
    exact ⟨n, hdone, hp, hf⟩
  · exact loopDone_iff

/-- C6 witness: the concrete two-task run terminates under the concrete
monotone unbounded clock. -/
theorem scheduler_terminates_when_work_exhausted_witness :
    (∃ n, loopDone (iterFrom wEnv wNow wCh 0 n (initState wTasks 0)) = true
      ∧ (iterFrom wEnv wNow wCh 0 n (initState wTasks 0)).pending_tasks = []
      ∧ (iterFrom wEnv wNow wCh 0 n (initState wTasks 0)).futures = [])
    ∧ (∀ s : SchedState,
        loopDone s = true ↔ (s.pending_tasks = [] ∧ s.futures = [])) :=
  scheduler_terminates_when_work_exhausted wEnv wNow wCh wTasks 0 (by decide)
    (by
      intro j
      simp only [wNow]
      omega)
    (by
      intro t
      refine ⟨t, ?_⟩
      simp only [wNow]
      omega)

/-- C7: every successfully read input line yields exactly one task whose
label is the line verbatim (no trimming or filtering in the core) and
whose status is `Pending`; an empty line yields the empty label, whose
query is the bare target domain `".{target}"`. -/
theorem input_lines_become_tasks_verbatim (lines : List String) (target : String) :
    read_subdomains (lines.map some) = lines.map ResolveTask.new
    ∧ (read_subdomains (lines.map some)).map ResolveTask.subdomain = lines
    ∧ (∀ t ∈ read_subdomains (lines.map some), t.status = ResolveStatus.Pending)
    ∧ to_resolve (ResolveTask.new "") target = "." ++ target := by
  have h1 : read_subdomains (lines.map some) = lines.map ResolveTask.new := by
    unfold read_subdomains
    rw [List.filterMap_map]
    simp
  refine ⟨h1, ?_, ?_, ?_⟩
  · rw [h1, List.map_map]
    exact List.map_id'' (fun x => rfl) lines
  · intro t ht
    rw [h1] at ht
    obtain ⟨l, -, rfl⟩ := List.mem_map.mp ht
    rfl
  · rfl

/-- C7 witness: a concrete input with one ordinary and one empty line. -/
theorem input_lines_become_tasks_verbatim_witness :
    read_subdomains (["www", ""].map some) = ["www", ""].map ResolveTask.new
    ∧ (read_subdomains (["www", ""].map some)).map ResolveTask.subdomain
        = ["www", ""]
    ∧ (∀ t ∈ read_subdomains (["www", ""].map some),
        t.status = ResolveStatus.Pending)
    ∧ to_resolve (ResolveTask.new "") "example.com" = "." ++ "example.com" :=
  input_lines_become_tasks_verbatim ["www", ""] "example.com"

/-- C8: `qps = 0` (the only non-positive `u32`) makes the startup
computation of the pacing interval abort — `runProgram` yields `none`:
no loop iteration, hence no query, ever happens — and it is the only
value that does. -/
theorem qps_zero_is_fatal_at_startup (resolver : String → LookupResponse)
    (target : String) (qps : Nat) (lines : List (Option String)) (t0 : Nat)
    (nowF chF : Nat → Nat) (n : Nat) :
    (runProgram resolver target qps lines t0 nowF chF n = none ↔ qps = 0)
    ∧ future_creation_interval 0 = none := by
  refine ⟨?_, rfl⟩
  unfold runProgram future_creation_interval
  by_cases h : qps = 0
  · simp [h]
  · simp [h]

/-- C9: one loop iteration moves the pacing timestamp to the tick's `now`
exactly when at least one task was dispatched, and leaves it unchanged on
a tick that dispatches nothing; the interval is an immutable field of
`SchedEnv`, constant over the run. -/
theorem pacing_timestamp_advances_only_on_dispatch (env : SchedEnv)
    (now choice : Nat) (s : SchedState) :
    (step env now choice s).last_future_created
      = (if min (n_new_tasks (now - s.last_future_created) env.interval)
            s.pending_tasks.length = 0
        then s.last_future_created else now) := by
  unfold step
  rw [completeOne_last, dispatchPhase_eq]
  exact (dispatchMany_spec now _ s (Nat.min_le_right _ _)).2.2.2.2

/-- C10: for every resolver outcome, the task returned by `resolve` keeps
the subdomain of the task it was given, and its status is never
`Pending`. -/
theorem resolve_preserves_subdomain_and_never_pending
    (r : String → LookupResponse) (task : ResolveTask) (target : String) :
    (resolve r task target).subdomain = task.subdomain
    ∧ (resolve r task target).status ≠ ResolveStatus.Pending :=
  ⟨resolve_subdomain r task target, resolve_status_terminal r task target⟩

end Dnsbuster
